import Mathlib

/-!
Verification of the ICFPC 2020 "galaxy" interpreter
(`src/interpreter/src/lib.rs`): the lazy combinator evaluator, the
binary modulation codec, the parser, and the interact driver's image
pipeline, shallowly embedded in Lean.

Conventions of the embedding:
* Rust `i64` values are modelled as `Int`; where the Rust code wraps
  (release-mode `+`, `*`, unary `-`) the model applies `wrap64`, and
  where it panics unconditionally (`/` by zero or `i64::MIN / -1`)
  the model returns `none`.
* Panics (`unwrap`, `panic!`-style failures) are modelled as `none`.
* The recursive functions of the source are not structurally
  terminating (evaluation of the combinator language can diverge), so
  each is given an explicit fuel argument; `none` on every fuel means
  divergence or failure self-reported by the code.
* The `CachedExpr` sharing wrapper is dropped in the main (pure)
  evaluator `evalF` — under a fixed environment the cache is a pure
  memoisation — and modelled explicitly with a mutable store in
  `evalS` below, where the claim under scrutiny is about the cache
  writes themselves.
-/

/-- The 17 primitives of `enum Primitive` in the source. -/
inductive Primitive where
  | Add | Mul | Div | Eq | Lt | Neg | S | C | B | I | F | T
  | Cons | Car | Cdr | Nil | Isnil
deriving DecidableEq, Repr

/-- Number of arguments a primitive consumes before its reduction rule
fires.  This is read off the saturated patterns of the big `match` in
`Expr::eval` (each pattern lists exactly this many bound arguments). -/
def arity : Primitive → Nat
  | .Add => 2 | .Mul => 2 | .Div => 2 | .Eq => 2 | .Lt => 2
  | .Neg => 1 | .S => 3 | .C => 3 | .B => 3 | .I => 1
  | .F => 2 | .T => 2 | .Cons => 3 | .Car => 1 | .Cdr => 1
  | .Nil => 1 | .Isnil => 1

/-- `enum Expr` of the source.  `CachedExpr` children are represented
by plain subterms here (the cache is modelled separately for the
frame-effect claim). -/
inductive Expr where
  | Ap (l r : Expr)
  | Op (p : Primitive) (v : List Expr)
  | Num (n : Int)
  | Var (name : String)
deriving Repr

/-- `type Env = HashMap<String, Expr>`. -/
def Env : Type := String → Option Expr

/-- `Expr::boolean`. -/
def Expr.boolean (b : Bool) : Expr :=
  if b then .Op .T [] else .Op .F []

/-- `Expr::must_num` (panics on a non-`Num`, hence `Option`). -/
def Expr.mustNum : Expr → Option Int
  | .Num n => some n
  | _ => none

/-- Two's-complement wrap-around into the `i64` range, the release-mode
semantics of overflowing `i64` `+`, `*` and unary `-`. -/
def wrap64 (n : Int) : Int := (n + 2 ^ 63) % 2 ^ 64 - 2 ^ 63

/-- The saturated arms of the big `match` in `Expr::eval`, factored
over the recursive call `recur` (which `evalF` instantiates with
itself at the remaining fuel).  Each arm is the source's rule for a
primitive applied to exactly `arity` arguments.  `i64` division fails
on a zero divisor and on `i64::MIN / -1` (Rust panics there in every
build profile).  The final `none` arm is unreachable when
`v.length = arity p` (every primitive at its arity matches a pattern);
it exists only to make the match total. -/
def applySat (recur : Expr → Option Expr) (p : Primitive) (v : List Expr) :
    Option Expr :=
  match p, v with
  | .B, [x0, x1, x2] => recur (.Ap x0 (.Ap x1 x2))
  | .C, [x0, x1, x2] => recur (.Ap (.Ap x0 x2) x1)
  | .S, [x0, x1, x2] => recur (.Ap (.Ap x0 x2) (.Ap x1 x2))
  | .I, [x0] => recur x0
  | .Car, [x2] => recur (.Ap x2 (Expr.boolean true))
  | .Cdr, [x2] => recur (.Ap x2 (Expr.boolean false))
  | .Neg, [x] =>
    match (recur x).bind Expr.mustNum with
    | some a => some (.Num (wrap64 (-a)))
    | none => none
  | .Nil, [_x0] => recur (Expr.boolean true)
  | .Isnil, [x0] =>
    match recur x0 with
    | some (.Op .Nil []) => recur (Expr.boolean true)
    | some (.Op .Cons [_, _]) => recur (Expr.boolean false)
    | _ => none
  | .F, [_x0, x1] => recur x1
  | .T, [x0, _x1] => recur x0
  | .Add, [x, y] =>
    match (recur x).bind Expr.mustNum, (recur y).bind Expr.mustNum with
    | some a, some b => some (.Num (wrap64 (a + b)))
    | _, _ => none
  | .Mul, [x, y] =>
    match (recur x).bind Expr.mustNum, (recur y).bind Expr.mustNum with
    | some a, some b => some (.Num (wrap64 (a * b)))
    | _, _ => none
  | .Div, [x, y] =>
    match (recur x).bind Expr.mustNum, (recur y).bind Expr.mustNum with
    | some a, some b =>
      if b = 0 ∨ (a = -(2 ^ 63) ∧ b = -1) then none
      else some (.Num (Int.tdiv a b))
    | _, _ => none
  | .Eq, [x, y] =>
    match (recur x).bind Expr.mustNum, (recur y).bind Expr.mustNum with
    | some a, some b => some (Expr.boolean (decide (a = b)))
    | _, _ => none
  | .Lt, [x, y] =>
    match (recur x).bind Expr.mustNum, (recur y).bind Expr.mustNum with
    | some a, some b => some (Expr.boolean (decide (a < b)))
    | _, _ => none
  | .Cons, [x0, x1, x2] => recur (.Ap (.Ap x2 x0) x1)
  | _, _ => none

/-- `Expr::eval`, with fuel.  The structure follows the source match:
an application forces its head (which must come back as an `Op`) and
pushes the argument; a variable forces the environment's definition
(`env.get(&name).unwrap()`, so an unbound name fails); an `Op` fires
its reduction rule exactly when the argument list reaches the
primitive's arity (the saturated patterns of the source match exactly
the lists of length `arity`), and is otherwise returned as-is (the
source's catch-all arm); a `Num` is returned as-is. -/
def evalF : Nat → Expr → Env → Option Expr
  | 0, _, _ => none
  | n+1, .Ap l r, env =>
    match evalF n l env with
    | some (.Op name v) => evalF n (.Op name (v ++ [r])) env
    | _ => none
  | n+1, .Var name, env =>
    match env name with
    | some e => evalF n e env
    | none => none
  | n+1, .Op name v, env =>
    if v.length = arity name then applySat (fun e => evalF n e env) name v
    else some (.Op name v)
  | _+1, .Num n, _ => some (.Num n)

/-- Evaluation as a relation: `e` evaluates (with enough fuel) to `r`. -/
def EvalR (env : Env) (e r : Expr) : Prop := ∃ n, evalF n e env = some r

/-- The empty environment. -/
def env0 : Env := fun _ => none

/-- Pushing the saturated dispatch along a refinement of the recursive
call: any result obtained with `recur` is obtained with any `recur'`
that succeeds wherever `recur` does. -/
theorem applySat_mono {recur recur' : Expr → Option Expr}
    (hrec : ∀ e r, recur e = some r → recur' e = some r)
    {p : Primitive} {v : List Expr} {r : Expr}
    (h : applySat recur p v = some r) : applySat recur' p v = some r := by
  have hbind : ∀ x a, (recur x).bind Expr.mustNum = some a →
      (recur' x).bind Expr.mustNum = some a := by
    intro x a hx
    rcases he : recur x with _ | xe
    · rw [he] at hx; simp at hx
    · rw [he] at hx; rw [hrec _ _ he]; simpa using hx
  cases p <;> rcases v with _ | ⟨x0, _ | ⟨x1, _ | ⟨x2, _ | ⟨x3, v⟩⟩⟩⟩ <;>
      simp only [applySat] at h ⊢ <;>
      first
        | exact hrec _ _ h
        | exact Option.noConfusion h
        | (split at h <;>
            first
              | exact Option.noConfusion h
              | (rename_i heq₁; rw [hrec _ _ heq₁]; exact hrec _ _ h)
              | (rename_i a heq₁; rw [hbind _ _ heq₁]; exact h)
              | (rename_i a b heq₁ heq₂
                 rw [hbind _ _ heq₁, hbind _ _ heq₂]; exact h))

/-- Fuel monotonicity: a result obtained with `n` units of fuel is
obtained with any larger amount. -/
theorem evalF_mono {n m : Nat} (hnm : n ≤ m) {e r : Expr} {env : Env}
    (h : evalF n e env = some r) : evalF m e env = some r := by
  induction n generalizing m e r with
  | zero => simp [evalF] at h
  | succ n ih =>
    obtain ⟨m, rfl⟩ : ∃ m', m = m' + 1 := ⟨m - 1, by omega⟩
    have hnm' : n ≤ m := by omega
    cases e with
    | Ap l r' =>
      simp only [evalF] at h ⊢
      split at h
      · rename_i name v heq
        rw [ih hnm' heq]
        exact ih hnm' h
      · exact Option.noConfusion h
    | Var name =>
      simp only [evalF] at h ⊢
      cases henv : env name
      · rw [henv] at h; exact Option.noConfusion h
      · rw [henv] at h; exact ih hnm' h
    | Op p v =>
      simp only [evalF] at h ⊢
      by_cases hl : v.length = arity p
      · rw [if_pos hl] at h ⊢
        exact applySat_mono (fun e r he => ih hnm' he) h
      · rwa [if_neg hl] at h ⊢
    | Num k => simpa [evalF] using h

/-- Evaluation is deterministic: two evaluation results of the same
term under the same environment agree. -/
theorem evalR_det {env : Env} {e r r' : Expr}
    (h : EvalR env e r) (h' : EvalR env e r') : r = r' := by
  obtain ⟨n, hn⟩ := h
  obtain ⟨m, hm⟩ := h'
  have h1 := evalF_mono (Nat.le_max_left n m) hn
  have h2 := evalF_mono (Nat.le_max_right n m) hm
  rw [h1] at h2
  exact (Option.some.injEq _ _).mp h2

/-- Shape of every evaluation result: a number, or an `Op` whose
argument count differs from its arity (the source's catch-all arm is
the only way an `Op` is returned).  Such a term re-evaluates to
itself. -/
def StableShape (r : Expr) : Prop :=
  (∃ k, r = .Num k) ∨ (∃ q w, r = .Op q w ∧ w.length ≠ arity q)

theorem stableShape_boolean (b : Bool) : StableShape (Expr.boolean b) := by
  cases b <;> exact Or.inr ⟨_, _, rfl, by decide⟩

/-- Every result of the saturated dispatch is a recursive-call result,
a freshly built number, or a boolean. -/
theorem applySat_stable {recur : Expr → Option Expr}
    {p : Primitive} {v : List Expr} {r : Expr}
    (hrec : ∀ e r', recur e = some r' → StableShape r')
    (h : applySat recur p v = some r) : StableShape r := by
  cases p <;> rcases v with _ | ⟨x0, _ | ⟨x1, _ | ⟨x2, _ | ⟨x3, v⟩⟩⟩⟩ <;>
      simp only [applySat] at h <;>
      first
        | exact hrec _ _ h
        | exact Option.noConfusion h
        | (split at h <;>
            first
              | exact Option.noConfusion h
              | exact hrec _ _ h
              | (obtain rfl := (Option.some.injEq _ _).mp h
                 exact Or.inl ⟨_, rfl⟩)
              | (obtain rfl := (Option.some.injEq _ _).mp h
                 exact stableShape_boolean _)
              | (split at h
                 · exact Option.noConfusion h
                 · obtain rfl := (Option.some.injEq _ _).mp h
                   exact Or.inl ⟨_, rfl⟩))

/-- Every successful evaluation result has the stable shape. -/
theorem evalF_stable {n : Nat} {e r : Expr} {env : Env}
    (h : evalF n e env = some r) : StableShape r := by
  induction n generalizing e r with
  | zero => simp [evalF] at h
  | succ n ih =>
    cases e with
    | Ap l r' =>
      simp only [evalF] at h
      split at h
      · exact ih h
      · exact Option.noConfusion h
    | Var name =>
      simp only [evalF] at h
      cases henv : env name
      · rw [henv] at h; exact Option.noConfusion h
      · rw [henv] at h; exact ih h
    | Op p v =>
      simp only [evalF] at h
      by_cases hl : v.length = arity p
      · rw [if_pos hl] at h
        exact applySat_stable (fun e r' he => ih he) h
      · rw [if_neg hl] at h
        obtain rfl := (Option.some.injEq _ _).mp h
        exact Or.inr ⟨p, v, rfl, hl⟩
    | Num k =>
      obtain rfl := (Option.some.injEq _ _).mp h
      exact Or.inl ⟨_, rfl⟩

/-- A stable-shaped term evaluates to itself in one step. -/
theorem stableShape_eval_self {r : Expr} {env : Env}
    (h : StableShape r) : evalF 1 r env = some r := by
  rcases h with ⟨k, rfl⟩ | ⟨q, w, rfl, hq⟩
  · rfl
  · simp [evalF, hq]

/-- Inversion / introduction for evaluating an application whose head
evaluates to a known `Op`. -/
theorem evalR_ap_iff {env : Env} {l x R : Expr} :
    EvalR env (.Ap l x) R ↔
      ∃ p v, EvalR env l (.Op p v) ∧ EvalR env (.Op p (v ++ [x])) R := by
  constructor
  · rintro ⟨n, hn⟩
    cases n with
    | zero => simp [evalF] at hn
    | succ n =>
      simp only [evalF] at hn
      split at hn
      · rename_i p v heq
        exact ⟨p, v, ⟨n, heq⟩, ⟨n, hn⟩⟩
      · exact Option.noConfusion hn
  · rintro ⟨p, v, ⟨n1, h1⟩, ⟨n2, h2⟩⟩
    refine ⟨max n1 n2 + 1, ?_⟩
    simp only [evalF]
    rw [evalF_mono (Nat.le_max_left n1 n2) h1]
    exact evalF_mono (Nat.le_max_right n1 n2) h2

/-- A partial application (argument count below the arity) is its own
evaluation result. -/
theorem evalR_stuck {env : Env} {p : Primitive} {v : List Expr}
    (h : ¬ v.length = arity p) : EvalR env (.Op p v) (.Op p v) :=
  ⟨1, by simp [evalF, h]⟩

/-- A partial application evaluates only to itself. -/
theorem evalR_stuck_inv {env : Env} {p : Primitive} {v : List Expr}
    {R : Expr} (h : ¬ v.length = arity p) (hR : EvalR env (.Op p v) R) :
    R = .Op p v :=
  (evalR_det hR (evalR_stuck h)).symm ▸ rfl

/-- Rewriting an application step when the head's value is known. -/
theorem evalR_ap1 {env : Env} {l x R : Expr} {p : Primitive}
    {v : List Expr} (hl : EvalR env l (.Op p v)) :
    EvalR env (.Ap l x) R ↔ EvalR env (.Op p (v ++ [x])) R := by
  constructor
  · intro h
    obtain ⟨q, w, h1, h2⟩ := evalR_ap_iff.mp h
    obtain ⟨rfl, rfl⟩ : p = q ∧ v = w := by
      have := evalR_det hl h1
      exact ⟨congrArg (fun e => match e with | .Op q _ => q | _ => p) this,
        congrArg (fun e => match e with | .Op _ w => w | _ => v) this⟩
    exact h2
  · intro h
    exact evalR_ap_iff.mpr ⟨p, v, hl, h⟩

/-- A saturated `Op` step is definitionally one fuel step of the
corresponding rewrite; this specialises it for each combinator. -/
theorem evalR_opS {env : Env} {x y z R : Expr} :
    EvalR env (.Op .S [x, y, z]) R ↔
      EvalR env (.Ap (.Ap x z) (.Ap y z)) R := by
  constructor
  · rintro ⟨n, hn⟩
    cases n with
    | zero => simp [evalF] at hn
    | succ n => exact ⟨n, hn⟩
  · rintro ⟨n, hn⟩
    exact ⟨n + 1, hn⟩

theorem evalR_opC {env : Env} {x y z R : Expr} :
    EvalR env (.Op .C [x, y, z]) R ↔ EvalR env (.Ap (.Ap x z) y) R := by
  constructor
  · rintro ⟨n, hn⟩
    cases n with
    | zero => simp [evalF] at hn
    | succ n => exact ⟨n, hn⟩
  · rintro ⟨n, hn⟩
    exact ⟨n + 1, hn⟩

theorem evalR_opB {env : Env} {x y z R : Expr} :
    EvalR env (.Op .B [x, y, z]) R ↔ EvalR env (.Ap x (.Ap y z)) R := by
  constructor
  · rintro ⟨n, hn⟩
    cases n with
    | zero => simp [evalF] at hn
    | succ n => exact ⟨n, hn⟩
  · rintro ⟨n, hn⟩
    exact ⟨n + 1, hn⟩

theorem evalR_opI {env : Env} {x R : Expr} :
    EvalR env (.Op .I [x]) R ↔ EvalR env x R := by
  constructor
  · rintro ⟨n, hn⟩
    cases n with
    | zero => simp [evalF] at hn
    | succ n => exact ⟨n, hn⟩
  · rintro ⟨n, hn⟩
    exact ⟨n + 1, hn⟩

theorem evalR_opT {env : Env} {x y R : Expr} :
    EvalR env (.Op .T [x, y]) R ↔ EvalR env x R := by
  constructor
  · rintro ⟨n, hn⟩
    cases n with
    | zero => simp [evalF] at hn
    | succ n => exact ⟨n, hn⟩
  · rintro ⟨n, hn⟩
    exact ⟨n + 1, hn⟩

theorem evalR_opF {env : Env} {x y R : Expr} :
    EvalR env (.Op .F [x, y]) R ↔ EvalR env y R := by
  constructor
  · rintro ⟨n, hn⟩
    cases n with
    | zero => simp [evalF] at hn
    | succ n => exact ⟨n, hn⟩
  · rintro ⟨n, hn⟩
    exact ⟨n + 1, hn⟩

theorem evalR_opCons {env : Env} {x0 x1 x2 R : Expr} :
    EvalR env (.Op .Cons [x0, x1, x2]) R ↔
      EvalR env (.Ap (.Ap x2 x0) x1) R := by
  constructor
  · rintro ⟨n, hn⟩
    cases n with
    | zero => simp [evalF] at hn
    | succ n => exact ⟨n, hn⟩
  · rintro ⟨n, hn⟩
    exact ⟨n + 1, hn⟩

theorem evalR_opCar {env : Env} {x R : Expr} :
    EvalR env (.Op .Car [x]) R ↔
      EvalR env (.Ap x (Expr.boolean true)) R := by
  constructor
  · rintro ⟨n, hn⟩
    cases n with
    | zero => simp [evalF] at hn
    | succ n => exact ⟨n, hn⟩
  · rintro ⟨n, hn⟩
    exact ⟨n + 1, hn⟩

theorem evalR_opCdr {env : Env} {x R : Expr} :
    EvalR env (.Op .Cdr [x]) R ↔
      EvalR env (.Ap x (Expr.boolean false)) R := by
  constructor
  · rintro ⟨n, hn⟩
    cases n with
    | zero => simp [evalF] at hn
    | succ n => exact ⟨n, hn⟩
  · rintro ⟨n, hn⟩
    exact ⟨n + 1, hn⟩

/-- A fully built cons cell `ap (ap cons a) b` evaluates exactly to the
partial application `Op Cons [a, b]`. -/
theorem evalR_consChain {env : Env} {a b X : Expr} :
    EvalR env (.Ap (.Ap (.Op .Cons []) a) b) X ↔ X = .Op .Cons [a, b] := by
  have h1 : EvalR env (.Ap (.Op .Cons []) a) (.Op .Cons [a]) := ⟨2, rfl⟩
  rw [evalR_ap1 h1]
  simp only [List.cons_append, List.nil_append]
  constructor
  · exact evalR_stuck_inv (by simp [arity])
  · rintro rfl
    exact evalR_stuck (by simp [arity])

theorem lawS (env : Env) (x y z R : Expr) :
    EvalR env (.Ap (.Ap (.Ap (.Op .S []) x) y) z) R ↔
      EvalR env (.Ap (.Ap x z) (.Ap y z)) R := by
  have h2 : EvalR env (.Ap (.Ap (.Op .S []) x) y) (.Op .S [x, y]) := ⟨3, rfl⟩
  rw [evalR_ap1 h2]
  simp only [List.cons_append, List.nil_append]
  exact evalR_opS

theorem lawC (env : Env) (x y z R : Expr) :
    EvalR env (.Ap (.Ap (.Ap (.Op .C []) x) y) z) R ↔
      EvalR env (.Ap (.Ap x z) y) R := by
  have h2 : EvalR env (.Ap (.Ap (.Op .C []) x) y) (.Op .C [x, y]) := ⟨3, rfl⟩
  rw [evalR_ap1 h2]
  simp only [List.cons_append, List.nil_append]
  exact evalR_opC

theorem lawB (env : Env) (x y z R : Expr) :
    EvalR env (.Ap (.Ap (.Ap (.Op .B []) x) y) z) R ↔
      EvalR env (.Ap x (.Ap y z)) R := by
  have h2 : EvalR env (.Ap (.Ap (.Op .B []) x) y) (.Op .B [x, y]) := ⟨3, rfl⟩
  rw [evalR_ap1 h2]
  simp only [List.cons_append, List.nil_append]
  exact evalR_opB

theorem lawI (env : Env) (x R : Expr) :
    EvalR env (.Ap (.Op .I []) x) R ↔ EvalR env x R := by
  have h0 : EvalR env (.Op .I []) (.Op .I []) := ⟨1, rfl⟩
  rw [evalR_ap1 h0]
  simp only [List.nil_append]
  exact evalR_opI

theorem lawT (env : Env) (x y R : Expr) :
    EvalR env (.Ap (.Ap (.Op .T []) x) y) R ↔ EvalR env x R := by
  have h1 : EvalR env (.Ap (.Op .T []) x) (.Op .T [x]) := ⟨2, rfl⟩
  rw [evalR_ap1 h1]
  simp only [List.cons_append, List.nil_append]
  exact evalR_opT

theorem lawF (env : Env) (x y R : Expr) :
    EvalR env (.Ap (.Ap (.Op .F []) x) y) R ↔ EvalR env y R := by
  have h1 : EvalR env (.Ap (.Op .F []) x) (.Op .F [x]) := ⟨2, rfl⟩
  rw [evalR_ap1 h1]
  simp only [List.cons_append, List.nil_append]
  exact evalR_opF

theorem lawCar (env : Env) (a b R : Expr) :
    EvalR env (.Ap (.Op .Car []) (.Ap (.Ap (.Op .Cons []) a) b)) R ↔
      EvalR env a R := by
  have h0 : EvalR env (.Op .Car []) (.Op .Car []) := ⟨1, rfl⟩
  rw [evalR_ap1 h0]
  simp only [List.nil_append]
  rw [evalR_opCar, evalR_ap1 (evalR_consChain.mpr rfl)]
  simp only [List.cons_append, List.nil_append]
  rw [evalR_opCons]
  have h1 : EvalR env (.Ap (Expr.boolean true) a) (.Op .T [a]) := ⟨2, rfl⟩
  rw [evalR_ap1 h1]
  simp only [List.cons_append, List.nil_append]
  exact evalR_opT

theorem lawCdr (env : Env) (a b R : Expr) :
    EvalR env (.Ap (.Op .Cdr []) (.Ap (.Ap (.Op .Cons []) a) b)) R ↔
      EvalR env b R := by
  have h0 : EvalR env (.Op .Cdr []) (.Op .Cdr []) := ⟨1, rfl⟩
  rw [evalR_ap1 h0]
  simp only [List.nil_append]
  rw [evalR_opCdr, evalR_ap1 (evalR_consChain.mpr rfl)]
  simp only [List.cons_append, List.nil_append]
  rw [evalR_opCons]
  have h1 : EvalR env (.Ap (Expr.boolean false) a) (.Op .F [a]) := ⟨2, rfl⟩
  rw [evalR_ap1 h1]
  simp only [List.cons_append, List.nil_append]
  exact evalR_opF

theorem lawIsnilNil (env : Env) (R : Expr) :
    EvalR env (.Ap (.Op .Isnil []) (.Op .Nil [])) R ↔ R = .Op .T [] := by
  have h0 : EvalR env (.Op .Isnil []) (.Op .Isnil []) := ⟨1, rfl⟩
  rw [evalR_ap1 h0]
  simp only [List.nil_append]
  constructor
  · rintro ⟨n, hn⟩
    match n, hn with
    | 0, hn => exact Option.noConfusion hn
    | 1, hn => exact Option.noConfusion hn
    | (m+2), hn =>
      have key : evalF (m+2) (.Op .Isnil [.Op .Nil []]) env =
          (match evalF (m+1) (.Op .Nil []) env with
            | some (.Op .Nil []) => evalF (m+1) (Expr.boolean true) env
            | some (.Op .Cons [_, _]) => evalF (m+1) (Expr.boolean false) env
            | _ => none) := rfl
      have h1 : evalF (m+1) (.Op .Nil []) env = some (.Op .Nil []) := rfl
      rw [key, h1] at hn
      have hR : EvalR env (Expr.boolean true) R := ⟨m + 1, hn⟩
      exact evalR_stuck_inv (by decide) hR
  · rintro rfl
    exact ⟨3, rfl⟩

theorem lawIsnilCons (env : Env) (a b R : Expr) :
    EvalR env (.Ap (.Op .Isnil []) (.Ap (.Ap (.Op .Cons []) a) b)) R ↔
      R = .Op .F [] := by
  have h0 : EvalR env (.Op .Isnil []) (.Op .Isnil []) := ⟨1, rfl⟩
  rw [evalR_ap1 h0]
  simp only [List.nil_append]
  constructor
  · rintro ⟨n, hn⟩
    match n, hn with
    | 0, hn => exact Option.noConfusion hn
    | (m+1), hn =>
      have key : evalF (m+1) (.Op .Isnil [.Ap (.Ap (.Op .Cons []) a) b]) env =
          (match evalF m (.Ap (.Ap (.Op .Cons []) a) b) env with
            | some (.Op .Nil []) => evalF m (Expr.boolean true) env
            | some (.Op .Cons [_, _]) => evalF m (Expr.boolean false) env
            | _ => none) := rfl
      rw [key] at hn
      rcases he : evalF m (.Ap (.Ap (.Op .Cons []) a) b) env with _ | xe
      · rw [he] at hn
        exact Option.noConfusion hn
      · obtain rfl : xe = .Op .Cons [a, b] := evalR_consChain.mp ⟨m, he⟩
        rw [he] at hn
        have hR : EvalR env (Expr.boolean false) R := ⟨m, hn⟩
        exact evalR_stuck_inv (by decide) hR
  · rintro rfl
    exact ⟨4, rfl⟩

theorem lawNilAny (env : Env) (x R : Expr) :
    EvalR env (.Ap (.Op .Nil []) x) R ↔ R = .Op .T [] := by
  have h0 : EvalR env (.Op .Nil []) (.Op .Nil []) := ⟨1, rfl⟩
  rw [evalR_ap1 h0]
  simp only [List.nil_append]
  constructor
  · rintro ⟨n, hn⟩
    match n, hn with
    | 0, hn => exact Option.noConfusion hn
    | (m+1), hn =>
      have hR : EvalR env (Expr.boolean true) R := ⟨m, hn⟩
      exact evalR_stuck_inv (by decide) hR
  · rintro rfl
    exact ⟨2, rfl⟩

/-- C3: the combinator laws hold pointwise under eval: for all terms
`x`, `y`, `z`, `a`, `b` and every environment,
`eval (s x y z) = eval ((x z)(y z))`, `eval (c x y z) = eval ((x z) y)`,
`eval (b x y z) = eval (x (y z))`, `eval (i x) = eval x`,
`eval (t x y) = eval x`, `eval (f x y) = eval y`,
`eval (car (cons a b)) = eval a`, `eval (cdr (cons a b)) = eval b`,
`eval (isnil nil) = t`, `eval (isnil (cons a b)) = f`, and
`eval (nil x) = t` for every argument `x`.  Equality of partial
evaluations is stated as: both sides evaluate to the same results. -/
theorem claim_C3_combinator_laws :
    (∀ (env : Env) (x y z R : Expr),
      EvalR env (.Ap (.Ap (.Ap (.Op .S []) x) y) z) R ↔
        EvalR env (.Ap (.Ap x z) (.Ap y z)) R) ∧
    (∀ (env : Env) (x y z R : Expr),
      EvalR env (.Ap (.Ap (.Ap (.Op .C []) x) y) z) R ↔
        EvalR env (.Ap (.Ap x z) y) R) ∧
    (∀ (env : Env) (x y z R : Expr),
      EvalR env (.Ap (.Ap (.Ap (.Op .B []) x) y) z) R ↔
        EvalR env (.Ap x (.Ap y z)) R) ∧
    (∀ (env : Env) (x R : Expr),
      EvalR env (.Ap (.Op .I []) x) R ↔ EvalR env x R) ∧
    (∀ (env : Env) (x y R : Expr),
      EvalR env (.Ap (.Ap (.Op .T []) x) y) R ↔ EvalR env x R) ∧
    (∀ (env : Env) (x y R : Expr),
      EvalR env (.Ap (.Ap (.Op .F []) x) y) R ↔ EvalR env y R) ∧
    (∀ (env : Env) (a b R : Expr),
      EvalR env (.Ap (.Op .Car []) (.Ap (.Ap (.Op .Cons []) a) b)) R ↔
        EvalR env a R) ∧
    (∀ (env : Env) (a b R : Expr),
      EvalR env (.Ap (.Op .Cdr []) (.Ap (.Ap (.Op .Cons []) a) b)) R ↔
        EvalR env b R) ∧
    (∀ (env : Env) (R : Expr),
      EvalR env (.Ap (.Op .Isnil []) (.Op .Nil [])) R ↔ R = .Op .T []) ∧
    (∀ (env : Env) (a b R : Expr),
      EvalR env (.Ap (.Op .Isnil []) (.Ap (.Ap (.Op .Cons []) a) b)) R ↔
        R = .Op .F []) ∧
    (∀ (env : Env) (x R : Expr),
      EvalR env (.Ap (.Op .Nil []) x) R ↔ R = .Op .T []) :=
  ⟨lawS, lawC, lawB, lawI, lawT, lawF, lawCar, lawCdr,
    lawIsnilNil, lawIsnilCons, lawNilAny⟩

/-- C7: evaluator idempotence — whenever `e` evaluates (without error)
to `r`, re-evaluating `r` under the same environment yields `r` again:
the result of `eval` is a fixed point of `eval`. -/
theorem claim_C7_eval_idempotent :
    ∀ (env : Env) (e r : Expr), EvalR env e r → EvalR env r r := by
  rintro env e r ⟨n, hn⟩
  exact ⟨1, stableShape_eval_self (evalF_stable hn)⟩

/-- Witness for C7 at `ap ap add 1 2`, which evaluates to `3`. -/
theorem claim_C7_witness :
    EvalR env0 (.Ap (.Ap (.Op .Add []) (.Num 1)) (.Num 2)) (.Num 3) ∧
      EvalR env0 (.Num 3) (.Num 3) :=
  ⟨⟨9, rfl⟩,
    claim_C7_eval_idempotent env0
      (.Ap (.Ap (.Op .Add []) (.Num 1)) (.Num 2)) (.Num 3) ⟨9, rfl⟩⟩

/-- `Int.tdiv` is the quotient rounded toward zero: its magnitude is
the floor-quotient of the magnitudes and its sign is the product of
the operand signs. -/
theorem tdiv_sign_natAbs (a b : Int) :
    a.tdiv b = a.sign * b.sign * ((a.natAbs / b.natAbs : Nat) : Int) := by
  rcases a with (_ | m) | m <;> rcases b with (_ | k) | k <;>
    simp [Int.tdiv, Int.sign, Int.natAbs]

/-- C8 counterexample: at `a = -2^63`, `b = -1` (64-bit integers with
`b ≠ 0`), the claim asserts `eval (div a b) = Num (2^63)`, but the
source's `i64` division panics there (quotient overflow), so
evaluation produces no result at all. -/
theorem claim_C8_counterexample :
    ¬ EvalR env0 (.Ap (.Ap (.Op .Div []) (.Num (-(2 ^ 63)))) (.Num (-1)))
        (.Num (2 ^ 63)) := by
  rintro ⟨n, hn⟩
  have h9 : evalF (n + 3)
      (.Ap (.Ap (.Op .Div []) (.Num (-(2 ^ 63)))) (.Num (-1))) env0 =
      none := rfl
  have hm := evalF_mono (Nat.le_add_right n 3) hn
  rw [h9] at hm
  exact Option.noConfusion hm

/-- C8 (amended): for 64-bit `a`, `b` with `b ≠ 0` and excluding the
one overflowing pair `a = -2^63, b = -1` (where the source's division
panics), `eval (div a b)` is `Num q` with `q` the quotient of `a` by
`b` rounded toward zero; in particular `div 6 (-2) = -3`,
`div (-5) 3 = -1` and `div (-5) (-3) = 1`. -/
theorem claim_C8_div_truncates :
    (∀ (env : Env) (a b : Int), -(2 ^ 63) ≤ a → a < 2 ^ 63 →
      -(2 ^ 63) ≤ b → b < 2 ^ 63 → b ≠ 0 → ¬(a = -(2 ^ 63) ∧ b = -1) →
      EvalR env (.Ap (.Ap (.Op .Div []) (.Num a)) (.Num b))
          (.Num (a.tdiv b)) ∧
        a.tdiv b = a.sign * b.sign * ((a.natAbs / b.natAbs : Nat) : Int)) ∧
    EvalR env0 (.Ap (.Ap (.Op .Div []) (.Num 6)) (.Num (-2)))
      (.Num (-3)) ∧
    EvalR env0 (.Ap (.Ap (.Op .Div []) (.Num (-5))) (.Num 3))
      (.Num (-1)) ∧
    EvalR env0 (.Ap (.Ap (.Op .Div []) (.Num (-5))) (.Num (-3)))
      (.Num 1) := by
  refine ⟨?_, ⟨9, rfl⟩, ⟨9, rfl⟩, ⟨9, rfl⟩⟩
  intro env a b _ _ _ _ hb hmin
  refine ⟨⟨3, ?_⟩, tdiv_sign_natAbs a b⟩
  have key : evalF 3 (.Ap (.Ap (.Op .Div []) (.Num a)) (.Num b)) env =
      (if b = 0 ∨ (a = -(2 ^ 63) ∧ b = -1) then none
       else some (.Num (a.tdiv b))) := rfl
  rw [key, if_neg ?_]
  rintro (h | h)
  · exact hb h
  · exact hmin h

/-- Witness for C8 at `a = 6`, `b = -2`. -/
theorem claim_C8_witness :
    EvalR env0 (.Ap (.Ap (.Op .Div []) (.Num 6)) (.Num (-2)))
        (.Num (Int.tdiv 6 (-2))) ∧
      Int.tdiv 6 (-2) =
        Int.sign 6 * Int.sign (-2) *
          (((Int.natAbs 6) / (Int.natAbs (-2)) : Nat) : Int) :=
  claim_C8_div_truncates.1 env0 6 (-2) (by decide) (by decide) (by decide)
    (by decide) (by decide) (by decide)

/-- The data-model invariant of the spec: every `Op` node carries at
most `arity` arguments (recursively). -/
inductive WfE : Expr → Prop where
  | ap {l r : Expr} : WfE l → WfE r → WfE (.Ap l r)
  | op {p : Primitive} {v : List Expr} (hlen : v.length ≤ arity p)
      (hv : ∀ x ∈ v, WfE x) : WfE (.Op p v)
  | num {k : Int} : WfE (.Num k)
  | var {s : String} : WfE (.Var s)

/-- An environment whose library terms all satisfy the invariant. -/
def WfEnv (env : Env) : Prop := ∀ s e, env s = some e → WfE e

/-- Weak head normal forms in the strict sense: a number, or a partial
application with strictly fewer arguments than the arity. -/
def WhnfLt (r : Expr) : Prop :=
  (∃ k, r = .Num k) ∨ (∃ q w, r = .Op q w ∧ w.length < arity q)

theorem wfE_boolean (b : Bool) : WfE (Expr.boolean b) := by
  cases b <;> exact WfE.op (by simp [arity]) (by simp)

theorem whnfLt_boolean (b : Bool) : WhnfLt (Expr.boolean b) := by
  cases b <;> exact Or.inr ⟨_, _, rfl, by simp [arity]⟩

/-- The saturated dispatch preserves the invariant and returns strict
weak head normal forms, provided the recursive call does. -/
theorem applySat_wf {recur : Expr → Option Expr} {p : Primitive}
    {v : List Expr} {r : Expr} (hv : ∀ x ∈ v, WfE x)
    (hrec : ∀ e r', WfE e → recur e = some r' → WfE r' ∧ WhnfLt r')
    (h : applySat recur p v = some r) : WfE r ∧ WhnfLt r := by
  cases p <;> rcases v with _ | ⟨x0, _ | ⟨x1, _ | ⟨x2, _ | ⟨x3, v⟩⟩⟩⟩ <;>
      simp only [applySat] at h <;>
      first
        | exact Option.noConfusion h
        | (refine hrec _ _ ?_ h
           repeat' first
             | exact wfE_boolean _
             | exact hv _ (List.mem_cons_self _ _)
             | exact hv _ (List.mem_cons_of_mem _ (List.mem_cons_self _ _))
             | exact hv _ (List.mem_cons_of_mem _
                 (List.mem_cons_of_mem _ (List.mem_cons_self _ _)))
             | apply WfE.ap)
        | (split at h <;>
            first
              | exact Option.noConfusion h
              | exact hrec _ _ (wfE_boolean _) h
              | (obtain rfl := (Option.some.injEq _ _).mp h
                 exact ⟨WfE.num, Or.inl ⟨_, rfl⟩⟩)
              | (obtain rfl := (Option.some.injEq _ _).mp h
                 exact ⟨wfE_boolean _, whnfLt_boolean _⟩)
              | (split at h
                 · exact Option.noConfusion h
                 · obtain rfl := (Option.some.injEq _ _).mp h
                   exact ⟨WfE.num, Or.inl ⟨_, rfl⟩⟩))

/-- On invariant-satisfying terms over an invariant-satisfying
environment, every evaluation result is a strict weak head normal
form (and still satisfies the invariant). -/
theorem evalF_wf_whnf {n : Nat} {e r : Expr} {env : Env}
    (henv : WfEnv env) (he : WfE e) (h : evalF n e env = some r) :
    WfE r ∧ WhnfLt r := by
  induction n generalizing e r with
  | zero => simp [evalF] at h
  | succ n ih =>
    cases e with
    | Ap l x =>
      have hl : WfE l := by cases he with | ap hl hx => exact hl
      have hx : WfE x := by cases he with | ap hl hx => exact hx
      simp only [evalF] at h
      split at h
      · rename_i p v heq
        obtain ⟨hwf, hwhnf⟩ := ih hl heq
        rcases hwhnf with ⟨k, hk⟩ | ⟨q, w, heqr, hlenw⟩
        · exact Expr.noConfusion hk
        · obtain ⟨rfl, rfl⟩ : p = q ∧ v = w := by
            injection heqr with h1 h2; exact ⟨h1, h2⟩
          have hvm : ∀ y ∈ v, WfE y := by
            cases hwf with | op hlen hvm => exact hvm
          refine ih (WfE.op ?_ ?_) h
          · simp only [List.length_append, List.length_cons,
              List.length_nil]
            omega
          · intro y hy
            rcases List.mem_append.mp hy with hy | hy
            · exact hvm y hy
            · obtain rfl := List.mem_singleton.mp hy
              exact hx
      · exact Option.noConfusion h
    | Var s =>
      simp only [evalF] at h
      cases henvs : env s
      · rw [henvs] at h; exact Option.noConfusion h
      · rw [henvs] at h; exact ih (henv _ _ henvs) h
    | Op p v =>
      have hlen : v.length ≤ arity p := by
        cases he with | op hlen hv => exact hlen
      have hv : ∀ x ∈ v, WfE x := by
        cases he with | op hlen hv => exact hv
      simp only [evalF] at h
      by_cases hl : v.length = arity p
      · rw [if_pos hl] at h
        exact applySat_wf hv (fun e r' hwfe hre => ih hwfe hre) h
      · rw [if_neg hl] at h
        obtain rfl := (Option.some.injEq _ _).mp h
        exact ⟨he, Or.inr ⟨p, v, rfl, lt_of_le_of_ne hlen hl⟩⟩
    | Num k =>
      obtain rfl := (Option.some.injEq _ _).mp h
      exact ⟨WfE.num, Or.inl ⟨_, rfl⟩⟩

/-- The result shapes claimed in C4: a `Num`, a partial `Op` with
fewer arguments than the arity, or one of the saturated data forms. -/
def IsWhnfC4 (r : Expr) : Prop :=
  (∃ k, r = .Num k) ∨ (∃ p v, r = .Op p v ∧ v.length < arity p) ∨
    r = .Op .T [] ∨ r = .Op .F [] ∨ r = .Op .Nil [] ∨
    ∃ hd tl, r = .Op .Cons [hd, tl]

/-- C4 counterexample: the over-applied term `Op(i, [0, 0])` (two
arguments on the unary identity, which never matches a reduction
pattern) evaluates successfully — the source's catch-all arm returns
it unchanged — yet the result is neither a `Num`, nor a partial
application (it has more arguments than the arity), nor a saturated
data form, refuting "for every term e whose evaluation succeeds". -/
theorem claim_C4_counterexample :
    evalF 1 (.Op .I [.Num 0, .Num 0]) env0 =
        some (.Op .I [.Num 0, .Num 0]) ∧
      ¬ IsWhnfC4 (.Op .I [.Num 0, .Num 0]) := by
  refine ⟨rfl, ?_⟩
  rintro (⟨k, hk⟩ | ⟨p, v, hpv, hlen⟩ | hT | hF | hN | ⟨hd, tl, hC⟩)
  · exact Expr.noConfusion hk
  · obtain ⟨rfl, rfl⟩ : Primitive.I = p ∧ [Expr.Num 0, Expr.Num 0] = v := by
      injection hpv with h1 h2; exact ⟨h1, h2⟩
    simp [arity] at hlen
  · injection hT with h1 h2; exact Primitive.noConfusion h1
  · injection hF with h1 h2; exact Primitive.noConfusion h1
  · injection hN with h1 h2; exact Primitive.noConfusion h1
  · injection hC with h1 h2; exact Primitive.noConfusion h1

/-- C4 (amended): for every term `e` satisfying the spec's data-model
invariant (every `Op` node carries at most `arity` arguments), over an
environment of invariant-satisfying library terms, a successful
evaluation returns a weak head normal form — a `Num`, a partial
`Op(p, args)` with `len(args) < arity(p)`, or a saturated data form —
and never an `Ap` or a `Var`. -/
theorem claim_C4_whnf :
    ∀ (n : Nat) (e r : Expr) (env : Env), WfEnv env → WfE e →
      evalF n e env = some r →
      IsWhnfC4 r ∧ (∀ l x, r ≠ .Ap l x) ∧ (∀ s, r ≠ .Var s) := by
  intro n e r env henv he h
  obtain ⟨-, hwhnf⟩ := evalF_wf_whnf henv he h
  refine ⟨?_, ?_, ?_⟩
  · rcases hwhnf with ⟨k, rfl⟩ | ⟨q, w, rfl, hlen⟩
    · exact Or.inl ⟨k, rfl⟩
    · exact Or.inr (Or.inl ⟨q, w, rfl, hlen⟩)
  · rcases hwhnf with ⟨k, rfl⟩ | ⟨q, w, rfl, hlen⟩ <;>
      exact fun l x hc => Expr.noConfusion hc
  · rcases hwhnf with ⟨k, rfl⟩ | ⟨q, w, rfl, hlen⟩ <;>
      exact fun s hc => Expr.noConfusion hc

/-- Witness for C4 at `ap ap add 1 2` under the empty environment. -/
theorem claim_C4_witness :
    IsWhnfC4 (.Num 3) ∧
      (∀ l x, Expr.Num 3 ≠ .Ap l x) ∧ (∀ s, Expr.Num 3 ≠ .Var s) :=
  claim_C4_whnf 9 (.Ap (.Ap (.Op .Add []) (.Num 1)) (.Num 2)) (.Num 3)
    env0 (fun s e hc => Option.noConfusion hc)
    (WfE.ap (WfE.ap (WfE.op (by simp [arity]) (by simp)) WfE.num) WfE.num)
    rfl

/-- Number of significant bits, with fuel (`bitlen` instantiates the
fuel with the number itself, which always suffices).  For values in
the `i64` range this equals the source's `64 - n.leading_zeros()`. -/
def bitlenAux : Nat → Nat → Nat
  | 0, _ => 0
  | fuel+1, n => if n = 0 then 0 else bitlenAux fuel (n / 2) + 1

def bitlen (n : Nat) : Nat := bitlenAux n n

/-- The lowest `w` bits of `n`, most significant first: the source's
`for i in (0..w).rev() { push (n >> i) & 1 }`. -/
def bitsMSB : Nat → Nat → List Bool
  | 0, _ => []
  | w+1, n => n.testBit w :: bitsMSB w n

/-- The integer branch of `Expr::modulate`: two sign bits (`01` for
nonnegative, `10` for negative), `t = ⌈keta/4⌉` ones and a zero
(`keta` the number of significant bits of `|n|`), then `|n|` as `4t`
bits most-significant-first. -/
def modNum (n : Int) : List Bool :=
  let sign : List Bool := if 0 ≤ n then [false, true] else [true, false]
  let m := n.natAbs
  let t := (bitlen m + 3) / 4
  sign ++ List.replicate t true ++ [false] ++ bitsMSB (4 * t) m

/-- `Expr::modulate`, with fuel: evaluate the term, then emit the
number encoding, `00` for `nil`, or `11 ++ modulate hd ++ modulate tl`
for a cons cell (the head is evaluated before its recursive call, as
in the source; the tail is passed as stored). -/
def modulateF : Nat → Expr → Env → Option (List Bool)
  | 0, _, _ => none
  | n+1, e, env =>
    match evalF (n+1) e env with
    | some (.Num k) => some (modNum k)
    | some (.Op .Nil []) => some [false, false]
    | some (.Op .Cons [hd, tl]) =>
      match evalF (n+1) hd env with
      | some hd' =>
        match modulateF n hd' env, modulateF n tl env with
        | some a, some b => some ([true, true] ++ a ++ b)
        | _, _ => none
      | none => none
    | _ => none

/-- `let t = 0; while it.next().unwrap() { t += 1 }` — count the ones
before the first zero; an exhausted iterator panics. -/
def readOnes : List Bool → Option (Nat × List Bool)
  | [] => none
  | false :: l => some (0, l)
  | true :: l =>
    match readOnes l with
    | some (t, rest) => some (t + 1, rest)
    | none => none

/-- `for i in (0..k).rev() { v |= bit << i }` — read `k` bits
most-significant-first; an exhausted iterator panics. -/
def readN : Nat → List Bool → Option (Nat × List Bool)
  | 0, l => some (0, l)
  | _+1, [] => none
  | k+1, b :: l =>
    match readN k l with
    | some (v, rest) => some ((if b then 2 ^ k else 0) + v, rest)
    | none => none

/-- `Expr::cons` — a cons cell in application form. -/
def Expr.cons (hd tl : Expr) : Expr := .Ap (.Ap (.Op .Cons []) hd) tl

/-- `Expr::nil`. -/
def Expr.nil : Expr := .Op .Nil []

/-- `Expr::demodulate_iter`, with fuel, returning the decoded term and
the unconsumed bits.  Each recursive call consumes at least two bits
first, so any fuel above the input length behaves like the source's
unbounded recursion. -/
def demodF : Nat → List Bool → Option (Expr × List Bool)
  | 0, _ => none
  | n+1, t0 :: t1 :: l =>
    match t0, t1 with
    | false, false => some (Expr.nil, l)
    | true, true =>
      match demodF n l with
      | some (x, l) =>
        match demodF n l with
        | some (y, l) => some (Expr.cons x y, l)
        | none => none
      | none => none
    | _, pos =>
      match readOnes l with
      | some (t, l) =>
        match readN (4 * t) l with
        | some (v, l) =>
          some (.Num (if pos then (v : Int) else -(v : Int)), l)
        | none => none
      | none => none
  | _+1, _ => none

/-- `Expr::demodulate` — decode a whole bit-string, discarding any
leftover bits, with the canonical sufficient fuel. -/
def Expr.demodulate (s : List Bool) : Option Expr :=
  match demodF (s.length + 1) s with
  | some (e, _) => some e
  | none => none

/-- The data sublanguage: integers and finite cons/nil trees. -/
inductive Data where
  | num (n : Int)
  | nil
  | cons (hd tl : Data)

/-- A data value as the term `demodulate` would build for it. -/
def Data.toExpr : Data → Expr
  | .num n => .Num n
  | .nil => Expr.nil
  | .cons h t => Expr.cons h.toExpr t.toExpr

/-- A data value in evaluated (weak head normal) form. -/
def dataWhnf : Data → Expr
  | .num n => .Num n
  | .nil => .Op .Nil []
  | .cons h t => .Op .Cons [h.toExpr, t.toExpr]

/-- The bit-string `modulate` emits for a data value. -/
def encode : Data → List Bool
  | .num n => modNum n
  | .nil => [false, false]
  | .cons h t => [true, true] ++ encode h ++ encode t

theorem bitlenAux_le_iff {fuel n k : Nat} (hf : n ≤ fuel) :
    bitlenAux fuel n ≤ k ↔ n < 2 ^ k := by
  induction fuel generalizing n k with
  | zero =>
    obtain rfl : n = 0 := by omega
    simp [bitlenAux, Nat.pos_pow_of_pos]
  | succ fuel ih =>
    by_cases h0 : n = 0
    · subst h0
      simp [bitlenAux, Nat.pos_pow_of_pos]
    · rw [bitlenAux, if_neg h0]
      cases k with
      | zero =>
        simp only [Nat.pow_zero]
        omega
      | succ k =>
        rw [Nat.succ_le_succ_iff, ih (by omega)]
        rw [pow_succ]
        omega

theorem bitlen_le_iff {n k : Nat} : bitlen n ≤ k ↔ n < 2 ^ k :=
  bitlenAux_le_iff (Nat.le_refl n)

theorem bitlen_lt_two_pow (n : Nat) : n < 2 ^ bitlen n :=
  bitlen_le_iff.mp (Nat.le_refl _)

theorem readN_bitsMSB (w n : Nat) (rest : List Bool) :
    readN w (bitsMSB w n ++ rest) = some (n % 2 ^ w, rest) := by
  induction w with
  | zero => simp [bitsMSB, readN, Nat.mod_one]
  | succ w ih =>
    simp only [bitsMSB, List.cons_append, readN, List.append_eq, ih]
    have h2 : n % 2 ^ (w + 1) = n % 2 ^ w + 2 ^ w * (n / 2 ^ w % 2) := by
      rw [pow_succ, Nat.mod_mul]
    have h3 : (if n.testBit w then 2 ^ w else 0) + n % 2 ^ w =
        n % 2 ^ (w + 1) := by
      rw [Nat.testBit_to_div_mod, h2]
      rcases Nat.mod_two_eq_zero_or_one (n / 2 ^ w) with h | h <;> rw [h]
      · simp
      · simp [Nat.add_comm]
    rw [h3]

theorem readOnes_replicate (t : Nat) (rest : List Bool) :
    readOnes (List.replicate t true ++ false :: rest) = some (t, rest) := by
  induction t with
  | zero => simp [readOnes]
  | succ t ih => simp [List.replicate, readOnes, ih]

/-- Decoding the integer encoding: `demodulate_iter` recovers exactly
the encoded integer and leaves the rest untouched. -/
theorem demodF_modNum (x : Int) (rest : List Bool) (fuel : Nat) :
    demodF (fuel + 1) (modNum x ++ rest) = some (.Num x, rest) := by
  have hmod : x.natAbs % 2 ^ (4 * ((bitlen x.natAbs + 3) / 4)) = x.natAbs :=
    Nat.mod_eq_of_lt (lt_of_lt_of_le (bitlen_lt_two_pow x.natAbs)
      (Nat.pow_le_pow_right (by omega) (by omega)))
  by_cases hx : 0 ≤ x
  · have hshape : modNum x ++ rest =
        false :: true ::
          (List.replicate ((bitlen x.natAbs + 3) / 4) true ++
            false :: (bitsMSB (4 * ((bitlen x.natAbs + 3) / 4)) x.natAbs ++
              rest)) := by
      simp [modNum, if_pos hx, List.append_assoc]
    rw [hshape]
    simp only [demodF, readOnes_replicate, readN_bitsMSB, hmod]
    simp only [if_true]
    have hcast : ((x.natAbs : Int)) = x := by omega
    rw [hcast]
  · have hshape : modNum x ++ rest =
        true :: false ::
          (List.replicate ((bitlen x.natAbs + 3) / 4) true ++
            false :: (bitsMSB (4 * ((bitlen x.natAbs + 3) / 4)) x.natAbs ++
              rest)) := by
      simp [modNum, if_neg hx, List.append_assoc]
    rw [hshape]
    simp only [demodF, readOnes_replicate, readN_bitsMSB, hmod]
    simp only [Bool.false_eq_true, if_false]
    have hcast : (-(x.natAbs : Int)) = x := by omega
    rw [hcast]

theorem one_le_encode_length (d : Data) : 1 ≤ (encode d).length := by
  cases d with
  | num x =>
    simp only [encode, modNum, List.length_append, List.length_cons,
      List.length_nil]
    split <;> omega
  | nil => simp [encode]
  | cons h t => simp [encode]

/-- Decoding is left inverse to encoding, bit-exactly, with any fuel
at least the number of encoded bits. -/
theorem demodF_encode (d : Data) (rest : List Bool) (fuel : Nat)
    (hf : (encode d).length ≤ fuel) :
    demodF fuel (encode d ++ rest) = some (d.toExpr, rest) := by
  induction d generalizing rest fuel with
  | num x =>
    obtain ⟨f, rfl⟩ : ∃ f, fuel = f + 1 :=
      ⟨fuel - 1, by have := one_le_encode_length (Data.num x); omega⟩
    exact demodF_modNum x rest f
  | nil =>
    obtain ⟨f, rfl⟩ : ∃ f, fuel = f + 1 :=
      ⟨fuel - 1, by have := one_le_encode_length Data.nil; omega⟩
    rfl
  | cons h t ih1 ih2 =>
    obtain ⟨f, rfl⟩ : ∃ f, fuel = f + 1 :=
      ⟨fuel - 1, by have := one_le_encode_length (Data.cons h t); omega⟩
    have hlen : (encode h).length + (encode t).length + 2 ≤ f + 1 := by
      simpa [encode] using hf
    have hre : encode (.cons h t) ++ rest =
        true :: true :: (encode h ++ (encode t ++ rest)) := by
      simp [encode]
    rw [hre]
    have key : demodF (f + 1)
        (true :: true :: (encode h ++ (encode t ++ rest))) =
        (match demodF f (encode h ++ (encode t ++ rest)) with
          | some (x, l) =>
            match demodF f l with
            | some (y, l) => some (Expr.cons x y, l)
            | none => none
          | none => none) := rfl
    rw [key, ih1 (encode t ++ rest) f (by omega)]
    show (match demodF f (encode t ++ rest) with
      | some (y, l) => some (Expr.cons h.toExpr y, l)
      | none => none) = some ((Data.cons h t).toExpr, rest)
    rw [ih2 rest f (by omega)]
    rfl

/-- `demodulate (encode d) = d` in the term representation the decoder
builds. -/
theorem demodulate_encode (d : Data) :
    Expr.demodulate (encode d) = some d.toExpr := by
  unfold Expr.demodulate
  have h := demodF_encode d [] ((encode d).length + 1) (by omega)
  rw [List.append_nil] at h
  rw [h]

/-- Fuel monotonicity for `modulate`. -/
theorem modulateF_mono {n m : Nat} (hnm : n ≤ m) {e : Expr} {env : Env}
    {s : List Bool} (h : modulateF n e env = some s) :
    modulateF m e env = some s := by
  induction n generalizing m e s with
  | zero => simp [modulateF] at h
  | succ n ih =>
    obtain ⟨m, rfl⟩ : ∃ m', m = m' + 1 := ⟨m - 1, by omega⟩
    have hnm2 : n + 1 ≤ m + 1 := hnm
    simp only [modulateF] at h ⊢
    split at h
    · rename_i k heq
      simp only [evalF_mono hnm2 heq]
      exact h
    · rename_i heq
      simp only [evalF_mono hnm2 heq]
      exact h
    · rename_i hd tl heq
      simp only [evalF_mono hnm2 heq]
      split at h
      · rename_i hd' heq2
        simp only [evalF_mono hnm2 heq2]
        split at h
        · rename_i a b heq3 heq4
          simp only [@ih m (by omega) _ _ heq3, @ih m (by omega) _ _ heq4]
          exact h
        · exact Option.noConfusion h
      · exact Option.noConfusion h
    · exact Option.noConfusion h

/-- Evaluating the decoder's term representation of a data value gives
its weak head normal form. -/
theorem evalF_toExpr (d : Data) (env : Env) (j : Nat) :
    evalF (j + 3) d.toExpr env = some (dataWhnf d) := by
  cases d <;> rfl

/-- `modulate` emits exactly `encode d` on the term representation of
a data value — both on the decoder-built form and on its WHNF. -/
theorem modulateF_encode (d : Data) (env : Env) :
    ∃ n, modulateF n d.toExpr env = some (encode d) ∧
      modulateF n (dataWhnf d) env = some (encode d) := by
  induction d with
  | num x => exact ⟨1, rfl, rfl⟩
  | nil => exact ⟨1, rfl, rfl⟩
  | cons h t ih1 ih2 =>
    obtain ⟨n1, h1, h1'⟩ := ih1
    obtain ⟨n2, h2, h2'⟩ := ih2
    have e2 : evalF ((max n1 n2 + 2) + 1) h.toExpr env =
        some (dataWhnf h) := evalF_toExpr h env (max n1 n2)
    have m1 : modulateF (max n1 n2 + 2) (dataWhnf h) env =
        some (encode h) :=
      modulateF_mono (by omega : n1 ≤ max n1 n2 + 2) h1'
    have m2 : modulateF (max n1 n2 + 2) t.toExpr env =
        some (encode t) :=
      modulateF_mono (by omega : n2 ≤ max n1 n2 + 2) h2
    refine ⟨(max n1 n2) + 3, ?_, ?_⟩
    · have key : modulateF ((max n1 n2 + 2) + 1)
          (Data.toExpr (.cons h t)) env =
          (match evalF ((max n1 n2 + 2) + 1) h.toExpr env with
            | some hd' =>
              (match modulateF (max n1 n2 + 2) hd' env,
                     modulateF (max n1 n2 + 2) t.toExpr env with
                | some a, some b => some ([true, true] ++ a ++ b)
                | _, _ => none)
            | none => none) := rfl
      show modulateF ((max n1 n2 + 2) + 1) _ _ = _
      simp only [key, e2, m1, m2]
      simp [encode]
    · have key : modulateF ((max n1 n2 + 2) + 1)
          (dataWhnf (.cons h t)) env =
          (match evalF ((max n1 n2 + 2) + 1) h.toExpr env with
            | some hd' =>
              (match modulateF (max n1 n2 + 2) hd' env,
                     modulateF (max n1 n2 + 2) t.toExpr env with
                | some a, some b => some ([true, true] ++ a ++ b)
                | _, _ => none)
            | none => none) := rfl
      show modulateF ((max n1 n2 + 2) + 1) _ _ = _
      simp only [key, e2, m1, m2]
      simp [encode]

/-- Every bit-string `modulate` produces is the encoding of some data
value. -/
theorem modulateF_encodes {n : Nat} {e : Expr} {env : Env}
    {s : List Bool} (h : modulateF n e env = some s) :
    ∃ d : Data, s = encode d := by
  induction n generalizing e s with
  | zero => simp [modulateF] at h
  | succ n ih =>
    simp only [modulateF] at h
    split at h
    · obtain rfl := (Option.some.injEq _ _).mp h
      exact ⟨.num _, rfl⟩
    · obtain rfl := (Option.some.injEq _ _).mp h
      exact ⟨.nil, rfl⟩
    · split at h
      · split at h
        · rename_i heq3 heq4
          obtain rfl := (Option.some.injEq _ _).mp h
          obtain ⟨dh, rfl⟩ := ih heq3
          obtain ⟨dt, rfl⟩ := ih heq4
          exact ⟨.cons dh dt, by simp [encode]⟩
        · exact Option.noConfusion h
      · exact Option.noConfusion h
    · exact Option.noConfusion h

theorem bitsMSB_length (w n : Nat) : (bitsMSB w n).length = w := by
  induction w with
  | zero => rfl
  | succ w ih => simp [bitsMSB, ih]

theorem bitlen_pos {n : Nat} (h : n ≠ 0) : 1 ≤ bitlen n := by
  by_contra hc
  have h0 : bitlen n ≤ 0 := by omega
  have := bitlen_le_iff.mp h0
  omega

theorem two_pow_pred_le {n : Nat} (h : n ≠ 0) : 2 ^ (bitlen n - 1) ≤ n := by
  by_contra hc
  have h2 : n < 2 ^ (bitlen n - 1) := by omega
  have h3 : bitlen n ≤ bitlen n - 1 := bitlen_le_iff.mpr h2
  have := bitlen_pos h
  omega

/-- C1: modulation round-trip.  (a) For every value `v` of the data
sublanguage (an integer, or a finite cons/nil tree of integers, in the
term representation the decoder itself builds), modulating `v`
succeeds and demodulating the produced bit-string yields `v` back.
(b) For every bit-string `s` produced by `modulate` on any term,
demodulating `s` succeeds and modulating the decoded term reproduces
`s` exactly. -/
theorem claim_C1_roundtrip :
    (∀ (d : Data) (env : Env), ∃ n,
      modulateF n d.toExpr env = some (encode d) ∧
        Expr.demodulate (encode d) = some d.toExpr) ∧
    (∀ (n : Nat) (e : Expr) (env : Env) (s : List Bool),
      modulateF n e env = some s →
        ∃ e', Expr.demodulate s = some e' ∧
          ∃ m, modulateF m e' env = some s) := by
  constructor
  · intro d env
    obtain ⟨n, h1, -⟩ := modulateF_encode d env
    exact ⟨n, h1, demodulate_encode d⟩
  · intro n e env s h
    obtain ⟨d, rfl⟩ := modulateF_encodes h
    obtain ⟨m, h1, -⟩ := modulateF_encode d env
    exact ⟨d.toExpr, demodulate_encode d, m, h1⟩

/-- Witness for C1(b) at the bit-string `modulate` produces for the
number `0`. -/
theorem claim_C1_witness :
    ∃ e', Expr.demodulate (modNum 0) = some e' ∧
      ∃ m, modulateF m e' env0 = some (modNum 0) :=
  claim_C1_roundtrip.2 1 (.Num 0) env0 (modNum 0) rfl

/-- C2: integer modulation format.  For every 64-bit signed `n`,
`modulate (Num n)` emits the two sign bits (`01` for `n ≥ 0`, `10` for
`n < 0`), then `t = ⌈k/4⌉` ones and a single zero — where `k` is the
number of significant bits of `|n|` (`k = 0` exactly for `n = 0`, and
otherwise `2^(k-1) ≤ |n| < 2^k`, which is the claim's
`k = 64 - clz(|n|)`) — then `|n|` as exactly `4t` bits
most-significant-first (reading those `4t` bits back MSB-first yields
`|n|`); in particular `modulate (Num 0) = "010"`,
`modulate (Num 1) = "01100001"` and `modulate (Num (-1)) = "10100001"`. -/
theorem claim_C2_integer_format :
    (∀ (n : Int) (env : Env), -(2 ^ 63) ≤ n → n < 2 ^ 63 →
      modulateF 1 (.Num n) env = some (modNum n) ∧
      modNum n = (if 0 ≤ n then [false, true] else [true, false]) ++
          List.replicate ((bitlen n.natAbs + 3) / 4) true ++ [false] ++
          bitsMSB (4 * ((bitlen n.natAbs + 3) / 4)) n.natAbs ∧
      (bitsMSB (4 * ((bitlen n.natAbs + 3) / 4)) n.natAbs).length =
        4 * ((bitlen n.natAbs + 3) / 4) ∧
      readN (4 * ((bitlen n.natAbs + 3) / 4))
          (bitsMSB (4 * ((bitlen n.natAbs + 3) / 4)) n.natAbs) =
        some (n.natAbs, []) ∧
      (n = 0 → bitlen n.natAbs = 0) ∧
      (n ≠ 0 → 2 ^ (bitlen n.natAbs - 1) ≤ n.natAbs ∧
        n.natAbs < 2 ^ bitlen n.natAbs)) ∧
    modNum 0 = [false, true, false] ∧
    modNum 1 = [false, true, true, false, false, false, false, true] ∧
    modNum (-1) = [true, false, true, false, false, false, false, true] := by
  refine ⟨?_, rfl, rfl, rfl⟩
  intro n env _ _
  refine ⟨rfl, rfl, bitsMSB_length _ _, ?_, ?_, ?_⟩
  · have hr := readN_bitsMSB (4 * ((bitlen n.natAbs + 3) / 4)) n.natAbs []
    rw [List.append_nil] at hr
    have hmod : n.natAbs % 2 ^ (4 * ((bitlen n.natAbs + 3) / 4)) =
        n.natAbs :=
      Nat.mod_eq_of_lt (lt_of_lt_of_le (bitlen_lt_two_pow _)
        (Nat.pow_le_pow_right (by omega) (by omega)))
    rw [hr, hmod]
  · rintro rfl
    rfl
  · intro hn
    have h0 : n.natAbs ≠ 0 := by omega
    exact ⟨two_pow_pred_le h0, bitlen_lt_two_pow _⟩

/-- Witness for C2 at `n = 1`. -/
theorem claim_C2_witness :
    modulateF 1 (.Num 1) env0 = some (modNum 1) :=
  (claim_C2_integer_format.1 1 env0 (by decide) (by decide)).1

/-- `STR_PRIMITIVE`: the name→primitive map built in `lazy_static`.
It has entries for exactly the 17 primitives — none for `mod`, `dem`
or `vec`. -/
def STR_PRIMITIVE : String → Option Primitive := fun s =>
  if s = "add" then some .Add else if s = "mul" then some .Mul
  else if s = "div" then some .Div else if s = "eq" then some .Eq
  else if s = "lt" then some .Lt else if s = "neg" then some .Neg
  else if s = "s" then some .S else if s = "c" then some .C
  else if s = "b" then some .B else if s = "i" then some .I
  else if s = "f" then some .F else if s = "t" then some .T
  else if s = "cons" then some .Cons else if s = "car" then some .Car
  else if s = "cdr" then some .Cdr else if s = "nil" then some .Nil
  else if s = "isnil" then some .Isnil else none

/-- The token alternatives of the parser's primitive-name match arm,
verbatim from the source (note `mod`, `dem` and `vec` are listed). -/
def primTokens : List String :=
  ["add", "b", "c", "car", "cdr", "cons", "div", "eq", "i", "isnil",
   "lt", "f", "mod", "dem", "vec", "mul", "neg", "nil", "s", "t"]

/-- `s.parse::<i64>()`: an optional sign, one or more ASCII digits,
result in the `i64` range. -/
def parseI64 (s : String) : Option Int :=
  let (sign, ds) : Int × List Char :=
    match s.data with
    | '-' :: rest => (-1, rest)
    | '+' :: rest => (1, rest)
    | chars => (1, chars)
  if ds = [] then none
  else if ds.all (fun c => '0' ≤ c && c ≤ '9') then
    let x := sign * (ds.foldl (fun acc c => acc * 10 + (c.toNat - 48)) 0 : Nat)
    if -(2 ^ 63) ≤ x ∧ x < 2 ^ 63 then some x else none
  else none

/-- `parse`, with fuel.  The `Bool` selects between parsing one
expression (`false`, the body of `parse`) and the list-sugar loop
(`true`, the `"("` arm's loop); the two are mutually recursive in the
source.  Failures model the source's panics: exhausted iterator,
`STR_PRIMITIVE.get(s).unwrap()` on `mod`/`dem`, and unknown
identifiers. -/
def parseCore : Nat → Bool → Env → List String →
    Option ((Expr ⊕ List Expr) × List String)
  | 0, _, _, _ => none
  | n+1, false, env, toks =>
    match toks with
    | [] => none
    | s :: rest =>
      if s = "(" then
        match parseCore n true env rest with
        | some (Sum.inr lst, rest') =>
          some (Sum.inl (lst.foldr Expr.cons Expr.nil), rest')
        | _ => none
      else if s = "ap" then
        match parseCore n false env rest with
        | some (Sum.inl e1, r1) =>
          (match parseCore n false env r1 with
            | some (Sum.inl e2, r2) => some (Sum.inl (.Ap e1 e2), r2)
            | _ => none)
        | _ => none
      else if s ∈ primTokens then
        if s = "vec" then some (Sum.inl (.Op .Cons []), rest)
        else
          match STR_PRIMITIVE s with
          | some p => some (Sum.inl (.Op p []), rest)
          | none => none
      else
        match parseI64 s with
        | some i => some (Sum.inl (.Num i), rest)
        | none =>
          if (env s).isSome then some (Sum.inl (.Var s), rest)
          else
            match s.data with
            | [] => none
            | c :: _ =>
              if c = ':' ∨ c = 'x' then some (Sum.inl (.Var s), rest)
              else none
  | n+1, true, env, toks =>
    match toks with
    | [] => none
    | s :: _ =>
      if s = ")" then some (Sum.inr [], toks.tail)
      else
        match parseCore n false env toks with
        | some (Sum.inl e, rest) =>
          (match rest with
            | [] => none
            | q :: _ =>
              match parseCore n true env (if q = "," then rest.tail else rest) with
              | some (Sum.inr es, rest') => some (Sum.inr (e :: es), rest')
              | _ => none)
        | _ => none

/-- `parse_string`: parse one expression from a token list (leftover
tokens are ignored, as in the source).  Two fuel units per token
bound the parser's recursion depth. -/
def parse_string (env : Env) (toks : List String) : Option Expr :=
  match parseCore (2 * toks.length + 2) false env toks with
  | some (Sum.inl e, _) => some e
  | _ => none

/-- C6 counterexample: parsing the single token `mod` (or `dem`) does
not succeed — the parser itself panics on `STR_PRIMITIVE.get(s)
.unwrap()`, because the match arm accepts the token but the primitive
map has no entry for it.  The claim's "parsing succeeds, and a crash
occurs only later in the evaluator" is false. -/
theorem claim_C6_counterexample :
    parse_string env0 ["mod"] = none ∧ parse_string env0 ["dem"] = none :=
  ⟨rfl, rfl⟩

/-- C6 (amended): a `mod` or `dem` token is accepted by the parser's
primitive-name arm but has no `STR_PRIMITIVE` entry, so parsing
panics right there, at any fuel, whatever follows; the evaluator never
receives a term for them.  `vec`, reserved in the same arm, parses as
an alias of `cons`. -/
theorem claim_C6_reserved_tokens :
    ∀ (n : Nat) (env : Env) (rest : List String),
      parseCore (n + 1) false env ("mod" :: rest) = none ∧
      parseCore (n + 1) false env ("dem" :: rest) = none ∧
      parseCore (n + 1) false env ("vec" :: rest) =
        some (Sum.inl (.Op .Cons []), rest) :=
  fun _ _ _ => ⟨rfl, rfl, rfl⟩

/-- `Expr::must_list_rev`, with fuel: evaluate; `nil` gives the empty
list, a cons cell recurses on the evaluated tail and then pushes the
(unevaluated) head; anything else panics. -/
def mustListRevF : Nat → Expr → Env → Option (List Expr)
  | 0, _, _ => none
  | n+1, e, env =>
    match evalF (n+1) e env with
    | some (.Op .Nil []) => some []
    | some (.Op .Cons [x0, x1]) =>
      match evalF (n+1) x1 env with
      | some tl =>
        match mustListRevF n tl env with
        | some res => some (res ++ [x0])
        | none => none
      | none => none
    | _ => none

/-- `Expr::must_list` — the reversal of `must_list_rev`. -/
def mustListF (n : Nat) (e : Expr) (env : Env) : Option (List Expr) :=
  match mustListRevF n e env with
  | some res => some res.reverse
  | none => none

/-- `Expr::must_point`: evaluate to a cons pair and force both
components to numbers. -/
def mustPointF (n : Nat) (e : Expr) (env : Env) : Option (Int × Int) :=
  match evalF n e env with
  | some (.Op .Cons [x, y]) =>
    match evalF n x env, evalF n y env with
    | some xv, some yv =>
      match xv.mustNum, yv.mustNum with
      | some a, some b => some (a, b)
      | _, _ => none
    | _, _ => none
  | _ => none

/-- The `Ord` of Rust `(i64, i64)`: lexicographic order, first
component major.  `Vec::sort` sorts by exactly this. -/
def pointLe (a b : Int × Int) : Bool :=
  decide (a.1 < b.1 ∨ (a.1 = b.1 ∧ a.2 ≤ b.2))

/-- The image extraction of the interact driver's flag-0 branch before
sorting: `data.must_list(env).into_iter().map(|l| l.must_list(env)
.into_iter().map(|v| v.must_point(env)).collect())`. -/
def rawImages (n : Nat) (data : Expr) (env : Env) :
    Option (List (List (Int × Int))) :=
  match mustListF n data env with
  | some ls =>
    ls.mapM (fun l =>
      match mustListF n l env with
      | some ps => ps.mapM (fun v => mustPointF n v env)
      | none => none)
  | none => none

/-- The images field of the returned `InteractResult`: the raw point
lists, each sorted (`.map(|mut l| { l.sort(); l })`). -/
def interactImages (n : Nat) (data : Expr) (env : Env) :
    Option (List (List (Int × Int))) :=
  match rawImages n data env with
  | some pss => some (pss.map (fun l => l.mergeSort pointLe))
  | none => none

theorem pointLe_trans (a b c : Int × Int) (h1 : pointLe a b = true)
    (h2 : pointLe b c = true) : pointLe a c = true := by
  simp only [pointLe, decide_eq_true_eq] at h1 h2 ⊢
  rcases h1 with h1 | ⟨h1, h1'⟩ <;> rcases h2 with h2 | ⟨h2, h2'⟩ <;>
    first
      | (left; omega)
      | (right; omega)

theorem pointLe_total (a b : Int × Int) :
    (pointLe a b || pointLe b a) = true := by
  simp only [pointLe, Bool.or_eq_true, decide_eq_true_eq]
  omega

/-- C9: whenever the flag-0 branch of the interact driver delivers an
image list, every delivered image is sorted lexicographically as a
sequence of `(x, y)` pairs (`x` major, `y` minor), and each delivered
image is a permutation of the raw extracted point list — the points
are reordered, never deduplicated or dropped. -/
theorem claim_C9_images_sorted :
    ∀ (n : Nat) (data : Expr) (env : Env) (imgs : List (List (Int × Int))),
      interactImages n data env = some imgs →
      (∀ img ∈ imgs, List.Pairwise (fun a b => pointLe a b = true) img) ∧
      ∃ raw, rawImages n data env = some raw ∧
        List.Forall₂ (fun l s => l.Perm s) raw imgs := by
  intro n data env imgs h
  unfold interactImages at h
  split at h
  · rename_i pss heq
    obtain rfl := (Option.some.injEq _ _).mp h
    constructor
    · intro img hm
      obtain ⟨l, -, rfl⟩ := List.mem_map.mp hm
      exact List.sorted_mergeSort pointLe_trans pointLe_total l
    · have hperm : ∀ ps : List (List (Int × Int)),
          List.Forall₂ (fun l s => l.Perm s) ps
            (ps.map (fun l => l.mergeSort pointLe)) := by
        intro ps
        induction ps with
        | nil => exact List.Forall₂.nil
        | cons l ls ih =>
          exact List.Forall₂.cons (l.mergeSort_perm pointLe).symm ih
      exact ⟨pss, heq, hperm pss⟩
  · exact Option.noConfusion h

/-- A one-image, one-point example: the term for `((cons 1 2))`. -/
def imageExample : Expr :=
  Data.toExpr (.cons (.cons (.cons (.num 1) (.num 2)) .nil) .nil)


/-- Witness for C9 on `imageExample`. -/
theorem claim_C9_witness :
    (∀ img ∈ [[((1 : Int), (2 : Int))]],
      List.Pairwise (fun a b => pointLe a b = true) img) ∧
      ∃ raw, rawImages 20 imageExample env0 = some raw ∧
        List.Forall₂ (fun l s => l.Perm s) raw [[((1 : Int), (2 : Int))]] :=
  claim_C9_images_sorted 20 imageExample env0 [[(1, 2)]] (by
    unfold interactImages
    rw [show rawImages 20 imageExample env0 = some [[((1 : Int), 2)]] from
      rfl]
    simp [List.mergeSort_singleton])

/-- `struct InteractResult`: the state text and the images with full
`i64` coordinates, exactly as stored internally. -/
structure InteractResultM where
  state : String
  images : List (List (Int × Int))

/-- `struct Point { x: i32, y: i32 }` (the value held after the
narrowing cast). -/
structure PointM where
  x : Int
  y : Int
deriving DecidableEq, Repr

/-- `struct Image`. -/
structure ImageM where
  img : List PointM

/-- Rust's `as i32` on an `i64`: two's-complement truncation to 32
bits (keep the value modulo `2^32`, represented in
`[-2^31, 2^31)`). -/
def i32cast (n : Int) : Int := (n + 2 ^ 31) % 2 ^ 32 - 2 ^ 31

/-- `InteractResult::image`: index into the stored images (a panic
when out of bounds) and narrow each coordinate with
`p.0 as _, p.1 as _`. -/
def InteractResultM.image (r : InteractResultM) (i : Nat) :
    Option ImageM :=
  match r.images[i]? with
  | some ps => some ⟨ps.map (fun p => ⟨i32cast p.1, i32cast p.2⟩)⟩
  | none => none

/-- `Image::point` — index into the already-narrowed points. -/
def ImageM.point (im : ImageM) (i : Nat) : Option PointM :=
  im.img[i]?

/-- C10: the host-facing accessor chain `image(i)` / `point(j)`
returns coordinates narrowed from 64 to 32 bits by a wrapping cast:
the delivered point's coordinates are congruent to the stored ones
modulo `2^32` and lie in the `i32` range — so coordinates outside
`[-2^31, 2^31)` are silently wrapped, coordinates inside it are
returned unchanged — while the internally stored image keeps the full
64-bit values.  The two closing equations exhibit the wrap on
out-of-range inputs. -/
theorem claim_C10_point_narrowing :
    (∀ (r : InteractResultM) (i j : Nat) (im : ImageM) (q : PointM),
      r.image i = some im → im.point j = some q →
      ∃ ps p, r.images[i]? = some ps ∧ ps[j]? = some p ∧
        q.x = i32cast p.1 ∧ q.y = i32cast p.2 ∧
        -(2 ^ 31) ≤ q.x ∧ q.x < 2 ^ 31 ∧ -(2 ^ 31) ≤ q.y ∧ q.y < 2 ^ 31 ∧
        (q.x - p.1) % 2 ^ 32 = 0 ∧ (q.y - p.2) % 2 ^ 32 = 0 ∧
        ((-(2 ^ 31) ≤ p.1 ∧ p.1 < 2 ^ 31 ∧ -(2 ^ 31) ≤ p.2 ∧
            p.2 < 2 ^ 31) → q.x = p.1 ∧ q.y = p.2)) ∧
    i32cast (2 ^ 31) = -(2 ^ 31) ∧ i32cast (2 ^ 32 + 5) = 5 := by
  refine ⟨?_, by decide, by decide⟩
  intro r i j im q h1 h2
  unfold InteractResultM.image at h1
  split at h1
  · rename_i ps heq
    obtain rfl := (Option.some.injEq _ _).mp h1
    unfold ImageM.point at h2
    simp only [List.getElem?_map] at h2
    rcases hp : ps[j]? with _ | p
    · rw [hp] at h2
      exact Option.noConfusion h2
    · rw [hp] at h2
      obtain rfl := (Option.some.injEq _ _).mp h2
      refine ⟨ps, p, heq, hp, ?_, ?_, ?_, ?_, ?_, ?_, ?_, ?_, ?_⟩ <;>
        simp only [i32cast] <;> omega
  · exact Option.noConfusion h1

/-- Witness for C10 on a single stored point `(2^31, 3)`, delivered as
`(-2^31, 3)`. -/
theorem claim_C10_witness :
    ∃ ps p,
      (InteractResultM.mk "" [[((2 ^ 31 : Int), 3)]]).images[0]? = some ps ∧
      ps[0]? = some p ∧
      (PointM.mk (-(2 ^ 31)) 3).x = i32cast p.1 ∧
      (PointM.mk (-(2 ^ 31)) 3).y = i32cast p.2 ∧
      -(2 ^ 31) ≤ (PointM.mk (-(2 ^ 31)) 3).x ∧
      (PointM.mk (-(2 ^ 31)) 3).x < 2 ^ 31 ∧
      -(2 ^ 31) ≤ (PointM.mk (-(2 ^ 31)) 3).y ∧
      (PointM.mk (-(2 ^ 31)) 3).y < 2 ^ 31 ∧
      ((PointM.mk (-(2 ^ 31)) 3).x - p.1) % 2 ^ 32 = 0 ∧
      ((PointM.mk (-(2 ^ 31)) 3).y - p.2) % 2 ^ 32 = 0 ∧
      ((-(2 ^ 31) ≤ p.1 ∧ p.1 < 2 ^ 31 ∧ -(2 ^ 31) ≤ p.2 ∧ p.2 < 2 ^ 31) →
        (PointM.mk (-(2 ^ 31)) 3).x = p.1 ∧
          (PointM.mk (-(2 ^ 31)) 3).y = p.2) :=
  claim_C10_point_narrowing.1 (InteractResultM.mk "" [[(2 ^ 31, 3)]]) 0 0
    (ImageM.mk [PointM.mk (-(2 ^ 31)) 3]) (PointM.mk (-(2 ^ 31)) 3)
    (by rfl) (by rfl)

/-- `Expr` with explicit sharing: every `CachedExpr` child is an index
into a store of mutable cells, as `Rc<RefCell<..>>` is in the
source. -/
inductive ExprS where
  | Ap (l r : Nat)
  | Op (p : Primitive) (v : List Nat)
  | Num (n : Int)
  | Var (name : String)
deriving DecidableEq, Repr

/-- The heap of `CachedExpr` cells: each holds the current term and
the one-shot `cached` flag. -/
abbrev Store : Type := List (ExprS × Bool)

def EnvS : Type := String → Option ExprS

/-- `Into<CachedExpr> for Expr`: a fresh cell with `cached = false`. -/
def alloc (st : Store) (e : ExprS) : Nat × Store :=
  (st.length, st ++ [(e, false)])

def ExprS.mustNum : ExprS → Option Int
  | .Num n => some n
  | _ => none

def ExprS.boolean (b : Bool) : ExprS :=
  if b then .Op .T [] else .Op .F []

/-- `CachedExpr::eval`: `cached.replace(true)` first — if the flag was
already set, return the stored term as-is; otherwise evaluate the
stored term (with the flag now set) and write the result back into
the cell. -/
def cachedEvalS (evalRec : ExprS → Store → Option (ExprS × Store))
    (id : Nat) (st : Store) : Option (ExprS × Store) :=
  match st[id]? with
  | some (e, cached) =>
    if cached then some (e, st)
    else
      match evalRec e (st.set id (e, true)) with
      | some (r, st') => some (r, st'.set id (r, true))
      | none => none
  | none => none

/-- `x.eval(env).must_num()` in the store model. -/
def forceNumS (evalRec : ExprS → Store → Option (ExprS × Store))
    (x : Nat) (st : Store) : Option (Int × Store) :=
  match cachedEvalS evalRec x st with
  | some (xv, st) =>
    match xv.mustNum with
    | some a => some (a, st)
    | none => none
  | none => none

/-- The saturated arms of `Expr::eval` in the store model.  Every
`.into()` of the source allocates a fresh cell (`alloc`); argument
forcing goes through `cachedEvalS`, mutating the argument's cell in
place. -/
def applySatS (recur : ExprS → Store → Option (ExprS × Store))
    (p : Primitive) (v : List Nat) (st : Store) :
    Option (ExprS × Store) :=
  match p, v with
  | .B, [x0, x1, x2] =>
    let (k, st) := alloc st (.Ap x1 x2)
    recur (.Ap x0 k) st
  | .C, [x0, x1, x2] =>
    let (k, st) := alloc st (.Ap x0 x2)
    recur (.Ap k x1) st
  | .S, [x0, x1, x2] =>
    let (k1, st) := alloc st (.Ap x0 x2)
    let (k2, st) := alloc st (.Ap x1 x2)
    recur (.Ap k1 k2) st
  | .I, [x0] => cachedEvalS recur x0 st
  | .Car, [x2] =>
    let (k, st) := alloc st (ExprS.boolean true)
    recur (.Ap x2 k) st
  | .Cdr, [x2] =>
    let (k, st) := alloc st (ExprS.boolean false)
    recur (.Ap x2 k) st
  | .Neg, [x] =>
    match forceNumS recur x st with
    | some (a, st) => some (.Num (wrap64 (-a)), st)
    | none => none
  | .Nil, [_x0] => recur (ExprS.boolean true) st
  | .Isnil, [x0] =>
    match cachedEvalS recur x0 st with
    | some (.Op .Nil [], st) => recur (ExprS.boolean true) st
    | some (.Op .Cons [_, _], st) => recur (ExprS.boolean false) st
    | _ => none
  | .F, [_x0, x1] => cachedEvalS recur x1 st
  | .T, [x0, _x1] => cachedEvalS recur x0 st
  | .Add, [x, y] =>
    match forceNumS recur x st with
    | some (a, st) =>
      (match forceNumS recur y st with
        | some (b, st) => some (.Num (wrap64 (a + b)), st)
        | none => none)
    | none => none
  | .Mul, [x, y] =>
    match forceNumS recur x st with
    | some (a, st) =>
      (match forceNumS recur y st with
        | some (b, st) => some (.Num (wrap64 (a * b)), st)
        | none => none)
    | none => none
  | .Div, [x, y] =>
    match forceNumS recur x st with
    | some (a, st) =>
      (match forceNumS recur y st with
        | some (b, st) =>
          if b = 0 ∨ (a = -(2 ^ 63) ∧ b = -1) then none
          else some (.Num (Int.tdiv a b), st)
        | none => none)
    | none => none
  | .Eq, [x, y] =>
    match forceNumS recur x st with
    | some (a, st) =>
      (match forceNumS recur y st with
        | some (b, st) => some (ExprS.boolean (decide (a = b)), st)
        | none => none)
    | none => none
  | .Lt, [x, y] =>
    match forceNumS recur x st with
    | some (a, st) =>
      (match forceNumS recur y st with
        | some (b, st) => some (ExprS.boolean (decide (a < b)), st)
        | none => none)
    | none => none
  | .Cons, [x0, x1, x2] =>
    let (k, st) := alloc st (.Ap x2 x0)
    recur (.Ap k x1) st
  | _, _ => none

/-- `Expr::eval` in the store model: identical control structure to
`evalF`, but argument cells are shared and mutated in place.  In the
`Var` case the library term is cloned shallowly
(`env.get(&name).unwrap().clone()`): its child cell indices — the
library term's own nodes — are shared with the evaluated copy. -/
def evalS : Nat → ExprS → EnvS → Store → Option (ExprS × Store)
  | 0, _, _, _ => none
  | n+1, .Ap l r, env, st =>
    match cachedEvalS (fun e st => evalS n e env st) l st with
    | some (.Op name v, st) => evalS n (.Op name (v ++ [r])) env st
    | _ => none
  | n+1, .Var name, env, st =>
    match env name with
    | some e => evalS n e env st
    | none => none
  | n+1, .Op name v, env, st =>
    if v.length = arity name then
      applySatS (fun e st => evalS n e env st) name v st
    else some (.Op name v, st)
  | _+1, .Num n, _, st => some (.Num n, st)

/-- A cached-cell evaluation step never shrinks the store. -/
theorem cachedEvalS_len {evalRec : ExprS → Store → Option (ExprS × Store)}
    (hrec : ∀ e st r st', evalRec e st = some (r, st') →
      st.length ≤ st'.length)
    {id : Nat} {st : Store} {r : ExprS} {st' : Store}
    (h : cachedEvalS evalRec id st = some (r, st')) :
    st.length ≤ st'.length := by
  unfold cachedEvalS at h
  split at h
  · rename_i e cached heq
    split at h
    · simp only [Option.some.injEq, Prod.mk.injEq] at h
      obtain ⟨rfl, rfl⟩ := h
      exact Nat.le_refl _
    · split at h
      · rename_i r0 st0 heq2
        simp only [Option.some.injEq, Prod.mk.injEq] at h
        obtain ⟨rfl, rfl⟩ := h
        have h1 := hrec _ _ _ _ heq2
        simp only [List.length_set] at h1 ⊢
        omega
      · exact Option.noConfusion h
  · exact Option.noConfusion h

theorem forceNumS_len {recur : ExprS → Store → Option (ExprS × Store)}
    (hrec : ∀ e st r st', recur e st = some (r, st') →
      st.length ≤ st'.length)
    {x : Nat} {st : Store} {a : Int} {st' : Store}
    (h : forceNumS recur x st = some (a, st')) :
    st.length ≤ st'.length := by
  unfold forceNumS at h
  split at h
  · rename_i xv st1 heq
    split at h
    · simp only [Option.some.injEq, Prod.mk.injEq] at h
      obtain ⟨rfl, rfl⟩ := h
      exact cachedEvalS_len hrec heq
    · exact Option.noConfusion h
  · exact Option.noConfusion h

/-- The saturated dispatch never shrinks the store (it allocates fresh
cells and updates existing ones in place). -/
theorem applySatS_len {recur : ExprS → Store → Option (ExprS × Store)}
    (hrec : ∀ e st r st', recur e st = some (r, st') →
      st.length ≤ st'.length)
    {p : Primitive} {v : List Nat} {st : Store} {r : ExprS} {st' : Store}
    (h : applySatS recur p v st = some (r, st')) :
    st.length ≤ st'.length := by
  cases p <;> rcases v with _ | ⟨x0, _ | ⟨x1, _ | ⟨x2, _ | ⟨x3, v⟩⟩⟩⟩ <;>
      simp only [applySatS, alloc] at h <;>
      first
        | exact Option.noConfusion h
        | exact cachedEvalS_len hrec h
        | exact hrec _ _ _ _ h
        | (have h1 := hrec _ _ _ _ h
           simp only [List.length_append] at h1
           omega)
        | (split at h <;>
            first
              | exact Option.noConfusion h
              | (rename_i st1 heq1
                 have g1 := cachedEvalS_len hrec heq1
                 have g2 := hrec _ _ _ _ h
                 omega)
              | (rename_i a st1 heq1
                 simp only [Option.some.injEq, Prod.mk.injEq] at h
                 obtain ⟨rfl, rfl⟩ := h
                 exact forceNumS_len hrec heq1)
              | (rename_i a st1 heq1
                 split at h <;>
                   first
                     | exact Option.noConfusion h
                     | (rename_i b st2 heq2
                        (try split at h) <;>
                          first
                            | exact Option.noConfusion h
                            | (simp only [Option.some.injEq,
                                Prod.mk.injEq] at h
                               obtain ⟨rfl, rfl⟩ := h
                               have g1 := forceNumS_len hrec heq1
                               have g2 := forceNumS_len hrec heq2
                               omega))))

/-- Evaluation in the store model never shrinks the store: cells are
allocated and updated in place, never removed. -/
theorem evalS_len : ∀ {n : Nat} {e : ExprS} {env : EnvS} {st : Store}
    {r : ExprS} {st' : Store},
    evalS n e env st = some (r, st') → st.length ≤ st'.length := by
  intro n
  induction n with
  | zero =>
    intro e env st r st' h
    simp [evalS] at h
  | succ n ih =>
    intro e env st r st' h
    cases e with
    | Ap l r' =>
      simp only [evalS] at h
      split at h
      · rename_i name v st1 heq
        have g1 := cachedEvalS_len (fun e st r st' hh => ih hh) heq
        have g2 := ih h
        omega
      · exact Option.noConfusion h
    | Var s =>
      simp only [evalS] at h
      cases henv : env s
      · rw [henv] at h
        exact Option.noConfusion h
      · rw [henv] at h
        exact ih h
    | Op p v =>
      simp only [evalS] at h
      by_cases hl : v.length = arity p
      · rw [if_pos hl] at h
        exact applySatS_len (fun e st r st' hh => ih hh) h
      · rw [if_neg hl] at h
        simp only [Option.some.injEq, Prod.mk.injEq] at h
        obtain ⟨rfl, rfl⟩ := h
        exact Nat.le_refl _
    | Num k =>
      simp only [evalS, Option.some.injEq, Prod.mk.injEq] at h
      obtain ⟨rfl, rfl⟩ := h
      exact Nat.le_refl _

/-- A two-cell library term `ap <cell 0> <cell 1>` bound to `x`: cell
0 holds `i`, cell 1 holds `7`.  The cells are the nodes of the
library term itself. -/
def env5 : EnvS := fun s => if s = "x" then some (.Ap 0 1) else none

def st0 : Store := [(.Op .I [], false), (.Num 7, false)]

/-- C5 counterexample: evaluating `Var "x"` — a term with no cells of
its own — under `env5` mutates the store cells 0 and 1, which are
exactly the nodes of the library term held in the environment: the
`Var` arm clones only the root of the library term and shares its
child cells, so the shared-term cache writes land on the library
term's nodes and the environment's term is changed after evaluation,
refuting the claim. -/
theorem claim_C5_counterexample :
    evalS 9 (.Var "x") env5 st0 =
        some (.Num 7, [(.Op .I [], true), (.Num 7, true)]) ∧
      ¬ ([((ExprS.Op .I []), true), ((ExprS.Num 7), true)] = st0) :=
  ⟨rfl, by decide⟩

/-- C5 (amended): evaluation mutates shared-term cache cells in place,
including the cells of environment terms — a `Var` lookup shares,
rather than copies, the library term's child cells, as the concrete
run in the second conjunct shows (both library cells end up evaluated
and flagged).  The store discipline that does hold: evaluation only
allocates new cells or updates existing ones — the store never
shrinks — and the name→term environment map itself is never
modified (evaluation only reads it). -/
theorem claim_C5_cache_writes :
    (∀ (n : Nat) (e : ExprS) (env : EnvS) (st : Store) (r : ExprS)
        (st' : Store), evalS n e env st = some (r, st') →
        st.length ≤ st'.length) ∧
      evalS 9 (.Var "x") env5 st0 =
        some (.Num 7, [(.Op .I [], true), (.Num 7, true)]) :=
  ⟨fun _ _ _ _ _ _ h => evalS_len h, rfl⟩

/-- Witness for C5 on the concrete two-cell run. -/
theorem claim_C5_witness :
    st0.length ≤
      [((ExprS.Op .I []), true), ((ExprS.Num 7), true)].length :=
  claim_C5_cache_writes.1 9 (.Var "x") env5 st0 (.Num 7)
    [((ExprS.Op .I []), true), ((ExprS.Num 7), true)] rfl
